import Mathlib

/-!
# Shallow embedding of the Thymus timeseries core

This file embeds the parts of `thymus/timeseries.py`, `thymus/tsproto.py`
and `thymus/freq_conversions.py` needed to settle the claims about the
date/value alignment and frequency-conversion engine, and proves (or
refutes) each claim against the embedding.

Modelling conventions:
* A timeseries is a pair of lists: `dseries : List Int` (ordinal date codes,
  Python `datetime.toordinal` values) and `tseries : List Row` where
  `Row := List Int` is one observation row (a flat series is a series of
  singleton rows, matching the `reshape((-1, 1))` promotion the code applies
  before any column stacking).  Values are modelled as integers: none of the
  settled claims depends on float arithmetic, only on lengths, ordering and
  membership.
* Python dicts keyed by `str(date)` are modelled as association lists keyed
  by the integer date code, with Python's last-write-wins update semantics.
  `str` is injective on the integer codes, so key membership and key counts
  coincide; every property proved about a dict-rebuilding operation here is
  invariant under the order produced by `sorted`, so the difference between
  lexicographic string order and numeric order never matters below.
* numpy reductions that raise on empty input (`selected.max()` on a
  zero-size array) are modelled as explicit error values, as are the
  `ValueError`s the code raises itself.
-/

namespace Thymus

/-- One observation row (a fixed-width vector of values). -/
abbrev Row := List Int

/-- Frequency codes, `thymus/constants.py`. -/
inductive Freq where
  | sec | min | h | d | w | m | q | y
deriving DecidableEq, Repr

/-- `FREQ_DAYTYPES = (FREQ_D, FREQ_W, FREQ_M, FREQ_Q, FREQ_Y)`. -/
def FREQ_DAYTYPES : List Freq := [.d, .w, .m, .q, .y]

/-- `FREQ_IDAYTYPES = (FREQ_H, FREQ_MIN, FREQ_SEC)`. -/
def FREQ_IDAYTYPES : List Freq := [.h, .min, .sec]

/-- `Timeseries.series_direction`: compares the first and last date code;
`1` for ascending, `-1` for descending, `0` for length below two. -/
def series_direction (dseries : List Int) : Int :=
  if dseries.length > 1 then
    if dseries.headD 0 < dseries.getLastD 0 then 1 else -1
  else 0

/-- Errors raised out of `Timeseries.row_no`.  `dateNotFound` is the
`ValueError` the method raises itself; `emptyReduction` is the numpy
`ValueError` a `.max()`/`.min()` reduction raises on a zero-size selection;
`invalidClosest` is the guard on the `closest` argument. -/
inductive RowNoErr where
  | dateNotFound | emptyReduction | invalidClosest
deriving DecidableEq, Repr

/-- `Timeseries.row_no(rowdate, closest, no_error)` for a native-encoded
`rowdate`.  Faithful to the control flow of the source: in the
`closest == -1` and `closest == 1` branches the `if selected.shape[0] == 0`
block is *not* followed by an `else`, so even after `row_no` is set to the
`-1` sentinel the code falls through to `selected.max()` / `selected.min()`,
which numpy rejects on the empty selection. -/
def row_no (dseries : List Int) (rdate : Int) (closest : Int)
    (no_error : Bool) : Except RowNoErr Int :=
  let series_dir := series_direction dseries
  if closest ≠ -1 ∧ closest ≠ 0 ∧ closest ≠ 1 then
    .error .invalidClosest
  else if closest = 0 then
    let selected := (List.range dseries.length).filter
      (fun i => dseries.getD i 0 = rdate)
    match selected with
    | [] => if no_error then .ok (-1) else .error .dateNotFound
    | i :: _ => .ok i
  else if closest = -1 then
    let selected := (List.range dseries.length).filter
      (fun i => dseries.getD i 0 ≤ rdate)
    match selected with
    | [] =>
        -- with `no_error` the code assigns the sentinel, then still runs the
        -- reduction on the empty selection, which raises
        if no_error then .error .emptyReduction else .error .dateNotFound
    | i :: rest =>
        if series_dir = 1 then .ok (rest.foldl max i : Nat)
        else .ok (rest.foldl min i : Nat)
  else
    let selected := (List.range dseries.length).filter
      (fun i => rdate ≤ dseries.getD i 0)
    match selected with
    | [] =>
        if no_error then .error .emptyReduction else .error .dateNotFound
    | i :: rest =>
        if series_dir = 1 then .ok (rest.foldl min i : Nat)
        else .ok (rest.foldl max i : Nat)

/-- Python truthiness of an optional integer argument (`if start and
finish:` treats both `None` and `0` as false). -/
def pyTruthy : Option Int → Bool
  | none => false
  | some v => v ≠ 0

/-- Python slice `l[s:f]` for nonnegative bounds. -/
def pySlice (l : List α) (s f : Nat) : List α :=
  (l.take f).drop s

/-- Python truthiness of an optional row index (`0` is falsy). -/
def pyTruthyNat : Option Nat → Bool
  | none => false
  | some v => v ≠ 0

/-- `Timeseries.trunc(start, finish)`: applies the same slice to the date
and value arrays, with the source's truthiness tests on the bounds. -/
def trunc (dseries : List Int) (tseries : List Row)
    (start finish : Option Nat) : List Int × List Row :=
  if pyTruthyNat start ∧ pyTruthyNat finish then
    (pySlice dseries (start.getD 0) (finish.getD 0),
     pySlice tseries (start.getD 0) (finish.getD 0))
  else if pyTruthyNat start then
    (dseries.drop (start.getD 0), tseries.drop (start.getD 0))
  else if pyTruthyNat finish then
    (dseries.take (finish.getD 0), tseries.take (finish.getD 0))
  else (dseries, tseries)

/-- In-place reversal (`Timeseries.reverse`): flips both arrays. -/
def reverseTs (dseries : List Int) (tseries : List Row) :
    List Int × List Row :=
  (dseries.reverse, tseries.reverse)

/-- `Timeseries.truncdate(start, finish)` with native-encoded bounds, both
call forms collapsed onto the two optional arguments (the single-pair call
form just unpacks into them).  Faithful to the source's bound
normalization: `start = min(start, finish)` runs first, so the following
`finish = max(start, finish)` sees the *updated* `start`.  The series is
normalized to ascending order first and the original direction restored at
the end; the `new=True` and in-place paths produce the same series, so one
function models both. -/
def truncdate_core (ds : List Int) (ts : List Row)
    (start finish : Option Int) : Except RowNoErr (List Int × List Row) :=
  if pyTruthy start ∧ pyTruthy finish then
    -- start = min(start, finish); finish = max(start, finish) — the second
    -- line reads the already-updated start
    match row_no ds (Min.min (start.getD 0) (finish.getD 0)) 1 false with
    | .error e => .error e
    | .ok start_row =>
      match row_no ds
          (Max.max (Min.min (start.getD 0) (finish.getD 0)) (finish.getD 0))
          (-1) false with
      | .error e => .error e
      | .ok finish_row =>
          .ok (trunc ds ts (some start_row.toNat)
            (some (finish_row + 1).toNat))
  else if pyTruthy start then
    match row_no ds (start.getD 0) 1 false with
    | .error e => .error e
    | .ok start_row => .ok (trunc ds ts (some start_row.toNat) none)
  else if pyTruthy finish then
    match row_no ds (finish.getD 0) (-1) false with
    | .error e => .error e
    | .ok finish_row =>
        .ok (trunc ds ts none (some (finish_row + 1).toNat))
  else
    .ok (ds, ts)

/-- `Timeseries.truncdate(start, finish)` proper: normalize to ascending
order, resolve and apply the window (`truncdate_core` above), restore the
original direction. -/
def truncdate (dseries : List Int) (tseries : List Row)
    (start finish : Option Int) : Except RowNoErr (List Int × List Row) :=
  if series_direction dseries = -1 then
    match truncdate_core dseries.reverse tseries.reverse start finish with
    | .error e => .error e
    | .ok r => .ok (reverseTs r.1 r.2)
  else
    match truncdate_core dseries tseries start finish with
    | .error e => .error e
    | .ok r => .ok r

/-! ## Dict-rebuild machinery

`Timeseries.as_dict` builds `{str(dseries[i]): tseries[i]}`; the rebuild
paths (`sort_by_date(force=True)`, `extend`, `add(match=False)`,
`replace`) then iterate `sorted(d.items())` into fresh `dseries`/`tseries`
lists.  The dict is modelled as an association list with Python's
last-write-wins update (the colliding key keeps its position; a new key is
appended), keyed by the integer code — see the header note. -/

/-- Python `d[k] = v`: overwrite in place if present, else append. -/
def dictInsert (d : List (Int × Row)) (k : Int) (v : Row) :
    List (Int × Row) :=
  if d.any (fun p => p.1 = k) then
    d.map (fun p => if p.1 = k then (k, v) else p)
  else d ++ [(k, v)]

/-- `d.setdefault(k, zeros); d[k] += v` from `add(match=False)`: the zero
vector matches `v`'s shape, so a fresh key just receives `v`. -/
def dictAdd (d : List (Int × Row)) (k : Int) (v : Row) :
    List (Int × Row) :=
  if d.any (fun p => p.1 = k) then
    d.map (fun p => if p.1 = k then (k, List.zipWith (· + ·) p.2 v) else p)
  else d ++ [(k, v)]

/-- `if date in self_dates: self_dates[date] = value` from
`replace(match=True)`: update only, never insert. -/
def dictUpdateOnly (d : List (Int × Row)) (k : Int) (v : Row) :
    List (Int × Row) :=
  if d.any (fun p => p.1 = k) then
    d.map (fun p => if p.1 = k then (k, v) else p)
  else d

/-- `Timeseries.as_dict`. -/
def as_dict (dseries : List Int) (tseries : List Row) : List (Int × Row) :=
  (dseries.zip tseries).foldl (fun d p => dictInsert d p.1 p.2) []

/-- Insert one pair into a key-sorted association list (`reverse` picks
descending key order), the sort underlying Python's `sorted(d.items())`. -/
def insertSorted (reverse : Bool) (p : Int × Row) :
    List (Int × Row) → List (Int × Row)
  | [] => [p]
  | q :: rest =>
      if (if reverse then q.1 ≤ p.1 else p.1 ≤ q.1) then p :: q :: rest
      else q :: insertSorted reverse p rest

/-- `sorted(d.items(), reverse=reverse)`: the dict's keys are distinct, so
any comparison sort produces this same list. -/
def sortPairs (reverse : Bool) (l : List (Int × Row)) :
    List (Int × Row) :=
  l.foldr (insertSorted reverse) []

/-- `Timeseries.sort_by_date(reverse, force)`.  With `force` the series is
rebuilt through the dict; otherwise the endpoint comparison decides whether
an in-place reversal is needed. -/
def sort_by_date (dseries : List Int) (tseries : List Row)
    (reverse force : Bool) : List Int × List Row :=
  if force then
    let d := sortPairs reverse (as_dict dseries tseries)
    (d.map Prod.fst, d.map Prod.snd)
  else
    if reverse = false ∧ series_direction dseries = 1 then
      (dseries, tseries)
    else if reverse = true ∧ series_direction dseries = -1 then
      (dseries, tseries)
    else reverseTs dseries tseries

/-- `Timeseries.extend(ts, overlay)`: union of the two dicts — a colliding
date keeps `self`'s value unless `overlay` — rebuilt sorted, descending
when `self` was descending.  The source contains no `raise`: the function
is total. -/
def extend (sds : List Int) (sts : List Row) (ods : List Int)
    (ots : List Row) (overlay : Bool) : List Int × List Row :=
  let s := sortPairs (series_direction sds = -1)
    ((as_dict ods ots).foldl
      (fun d p =>
        if d.any (fun q => q.1 = p.1) then
          if overlay then dictInsert d p.1 p.2 else d
        else dictInsert d p.1 p.2)
      (as_dict sds sts))
  (s.map Prod.fst, s.map Prod.snd)

/-- Errors raised out of `Timeseries.add`. -/
inductive AddErr where
  | lengthMismatch | dateMismatch
deriving DecidableEq, Repr

/-- `Timeseries.add(ts, match)`: with `match`, equal lengths and identical
date series are required and the values add elementwise; without it the
date-union is built with zero contributions for missing sides.  (The
shape-based `_column_checks` gate is not modelled; the claims settled
against `add` are insensitive to it.) -/
def add (sds : List Int) (sts : List Row) (ods : List Int)
    (ots : List Row) (mtch : Bool) : Except AddErr (List Int × List Row) :=
  if mtch then
    if sts.length ≠ ots.length then .error .lengthMismatch
    else if sds ≠ ods then .error .dateMismatch
    else .ok (sds, List.zipWith (List.zipWith (· + ·)) sts ots)
  else
    let s := sortPairs (series_direction sds = -1)
      ((as_dict ods ots).foldl (fun d p => dictAdd d p.1 p.2)
        (as_dict sds sts))
    .ok (s.map Prod.fst, s.map Prod.snd)

/-- `Timeseries.replace(ts, match)`: date-keyed overwrite; with `match`
only dates already present are touched, otherwise new dates are inserted
too.  Rebuilt sorted in the original direction. -/
def replace (sds : List Int) (sts : List Row) (ods : List Int)
    (ots : List Row) (mtch : Bool) : List Int × List Row :=
  let s := sortPairs (series_direction sds = -1)
    (if mtch then
      (as_dict ods ots).foldl (fun d p => dictUpdateOnly d p.1 p.2)
        (as_dict sds sts)
    else
      (as_dict ods ots).foldl (fun d p => dictInsert d p.1 p.2)
        (as_dict sds sts))
  (s.map Prod.fst, s.map Prod.snd)

/-- Errors raised out of `Timeseries.combine`: the explicit length check of
the `discard=False, pad=None` branch, and the numpy error `np.hstack`
raises when the stacked arrays disagree on row count. -/
inductive CombineErr where
  | lengthMismatch | hstackMismatch
deriving DecidableEq, Repr

/-- `tseries.shape[1]` of a promoted (tabular) series. -/
def colCount (ts : List Row) : Nat := (ts.headD []).length

/-- `np.hstack`: concatenate the columns of equal-row-count blocks. -/
def hstackAll : List (List Row) → Except CombineErr (List Row)
  | [] => .ok []
  | t :: rest =>
      if rest.any (fun u => u.length ≠ t.length) then .error .hstackMismatch
      else .ok (rest.foldl (fun acc u => List.zipWith (· ++ ·) acc u) t)

/-- `Timeseries.combine(tss, discard, pad)`: column-wise stacking of `self`
with the others, each first promoted to tabular shape (the promotion is the
identity in this model, where a flat series is already a series of
singleton rows).  `discard` truncates every input to the shortest length —
through `trunc(finish=length)`, so a shortest length of `0` is falsy and
truncates nothing; `pad` right-pads shorter inputs with the pad value,
borrowing the trailing dates of the longest (`ts_ref`) input.  No sort is
performed anywhere in this function. -/
def combine_prepare (sds : List Int) (sts : List Row)
    (others : List (List Int × List Row)) (discard : Bool)
    (pad : Option Int) :
    Except CombineErr (List (List Int × List Row)) :=
  if discard = false then
    if pad = none then
      if ((sds, sts) :: others).any (fun p => p.2.length ≠ sts.length) then
        .error .lengthMismatch
      else .ok ((sds, sts) :: others)
    else
      .ok (((sds, sts) :: others).map (fun p =>
        if (((sds, sts) :: others).map
            (fun p => p.2.length)).foldr Max.max 0 - p.2.length > 0 then
          (p.1 ++
            (((sds, sts) :: others).getD
              ((((sds, sts) :: others).map (fun p => p.2.length)).indexOf
                ((((sds, sts) :: others).map
                  (fun p => p.2.length)).foldr Max.max 0))
              ([], [])).1.drop p.2.length,
           p.2 ++ List.replicate
            ((((sds, sts) :: others).map
              (fun p => p.2.length)).foldr Max.max 0 - p.2.length)
            (List.replicate (colCount p.2) (pad.getD 0)))
        else p))
  else
    .ok (((sds, sts) :: others).map (fun p => trunc p.1 p.2 none
      (some ((others.map (fun p => p.2.length)).foldl Min.min
        sts.length))))

/-- `Timeseries.combine` proper: prepare (length-check / pad / truncate),
stack, and return the first series' dates with the stacked values. -/
def combine (sds : List Int) (sts : List Row)
    (others : List (List Int × List Row)) (discard : Bool)
    (pad : Option Int) : Except CombineErr (List Int × List Row) :=
  match combine_prepare sds sts others discard pad with
  | .error e => .error e
  | .ok tss' =>
      match hstackAll (tss'.map Prod.snd) with
      | .error e => .error e
      | .ok stacked => .ok ((tss'.headD ([], [])).1, stacked)

/-! ## Frequency conversion (`thymus/freq_conversions.py`)

Only the ordinal (`_filter_dates`) branch of `convert` is embedded: every
claim touching conversion concerns day-type (ordinal) series, and the
timestamp branch (`_filter_idates`, local-timezone `fromtimestamp`) never
runs for them.  An ordinal date code renders as a *midnight* `datetime`, so
the `second`/`minute`/`hour` indicator attributes are constantly `0` for
the dates seen here. -/

/-- `datetime.fromordinal(n)`'s calendar date `(year, month, day)`
(proleptic Gregorian, ordinal 1 = 0001-01-01), via the standard
civil-from-days construction. -/
def civilFromOrdinal (n : Int) : Int × Int × Int :=
  let z := n + 305
  let era := (if 0 ≤ z then z else z - 146096) / 146097
  let doe := z - era * 146097
  let yoe := (doe - doe / 1460 + doe / 36524 - doe / 146096) / 365
  let y := yoe + era * 400
  let doy := doe - (365 * yoe + yoe / 4 - yoe / 100)
  let mp := (5 * doy + 2) / 153
  let dd := doy - (153 * mp + 2) / 5 + 1
  let mm := mp + (if mp < 10 then 3 else -9)
  (if mm ≤ 2 then y + 1 else y, mm, dd)

/-- `.month` of `datetime.fromordinal(n)`. -/
def ordMonth (n : Int) : Int := (civilFromOrdinal n).2.1

/-- `.day` of `datetime.fromordinal(n)`. -/
def ordDay (n : Int) : Int := (civilFromOrdinal n).2.2

/-- `datetime.weekday()` of `datetime.fromordinal(n)`: Monday is `0`, and
ordinal 1 (0001-01-01) is a Monday. -/
def pyWeekday (n : Int) : Int := (n - 1) % 7

/-- `_weekday_test(date, kwargs)`: with a `weekday` keyword, `1` iff the
date's weekday equals it — no range validation anywhere; without the
keyword, the weekday itself. -/
def weekday_test (o : Int) (kw : Option Int) : Int :=
  match kw with
  | some wd => if pyWeekday o = wd then 1 else 0
  | none => pyWeekday o

/-- `DATETIME_DICT[freq]` as an indicator function of an ordinal date (the
attribute entries read the named field of the midnight datetime).  The dict
has no `'sec'` entry, so that lookup raises `KeyError`. -/
def indicatorOf (freq : Freq) : Option (Int → Option Int → Int) :=
  match freq with
  | .min => some (fun _ _ => 0)
  | .h => some (fun _ _ => 0)
  | .d => some (fun _ _ => 0)
  | .w => some (fun o kw => weekday_test o kw)
  | .m => some (fun o _ => ordDay o)
  | .q => some (fun o _ => if ordMonth o % 3 = 0 then 1 else 0)
  | .y => some (fun o _ => ordMonth o)
  | .sec => none

/-- The boundary scan of `_filter_dates`:
`np.argwhere(indicators[1:] - indicators[:-1] > 0)`, an ascending list of
indices. -/
def boundariesOf (dates : List Int) (f : Int → Option Int → Int)
    (kw : Option Int) : List Nat :=
  let ind := dates.map (fun o => f o kw)
  (List.range (dates.length - 1)).filter
    (fun i => ind.getD (i + 1) 0 - ind.getD i 0 > 0)

/-- Errors out of the conversion path: `freqNotInHierarchy` is the
`ValueError` of `HIERARCHY.index` (the tuple omits `FREQ_W`),
`invalidConversionDirection` the "Cannot convert" raise, `keyError` the
missing `DATETIME_DICT` entry, `invalidNewFreq` the gate in
`Timeseries.convert`. -/
inductive ConvErr where
  | freqNotInHierarchy | invalidConversionDirection | keyError
  | invalidNewFreq
deriving DecidableEq, Repr

/-- `HIERARCHY.index(f)` for
`HIERARCHY = (FREQ_SEC, FREQ_MIN, FREQ_H, FREQ_D, FREQ_M, FREQ_Q, FREQ_Y)`;
`FREQ_W` is absent from the tuple, so `.index` raises on it. -/
def hierIdx : Freq → Except ConvErr Nat
  | .sec => .ok 0
  | .min => .ok 1
  | .h => .ok 2
  | .d => .ok 3
  | .m => .ok 4
  | .q => .ok 5
  | .y => .ok 6
  | .w => .error .freqNotInHierarchy

/-- The index-selection block of `convert`: skipped entirely when no
boundary was found; otherwise the `end_of_period` shift by one, the
prepend of index `0` when `include_partial` or the *source* frequency is
coarser than daily, and the append of the last index when the source is
coarser than daily. -/
def convert_select (selected0 : List Nat) (end_of_period : Bool)
    ( include_partial : Bool) (freq_idx daily_idx n : Nat) : List Nat :=
  match selected0 with
  | [] => selected0
  | _ :: _ =>
    let s1 := if end_of_period then selected0.map (· + 1) else selected0
    let s2 :=
      if include_partial ∨ freq_idx > daily_idx then
        if s1.headD 0 ≠ 0 then 0 :: s1 else s1
      else s1
    if freq_idx > daily_idx then
      if s2.getLastD 0 ≠ n - 1 then s2 ++ [n - 1] else s2
    else s2

/-- An ordinal-dated timeseries as `convert` sees it. -/
structure OrdTs where
  dseries : List Int
  tseries : List Row
  frequency : Freq
  end_of_period : Bool
deriving DecidableEq, Repr

/-- The rebuild step of `convert`: subset both arrays by the selected
indices (for a daily target the dates go through `toordinal`, which on the
midnight datetimes of an ordinal series returns the original codes), then
reverse if the selection flipped the direction relative to the input. -/
def convert_rebuild (ds0 : List Int) (ts0 : List Row)
    (selected : List Nat) (series_dir : Int) (new_freq : Freq)
    (end_of_period : Bool) : OrdTs :=
  let newTs := selected.map (fun i => ts0.getD i [])
  let newDs :=
    if new_freq = .d then
      -- `date.toordinal()` over the selected midnight datetimes returns
      -- the very codes they were built from
      selected.map (fun i => ds0.getD i 0)
    else selected.map (fun i => ds0.getD i 0)
  if series_dir ≠ series_direction newDs then
    ⟨(reverseTs newDs newTs).1, (reverseTs newDs newTs).2, new_freq,
      end_of_period⟩
  else ⟨newDs, newTs, new_freq, end_of_period⟩

/-- `freq_conversions.convert(ts, new_freq, include_partial, **kwargs)`,
ordinal branch.  Faithful points worth noting against the source:
* `new_idx = HIERARCHY.index(FREQ_Q)` — the quarterly constant, not
  `new_freq` — so the direction gate `freq_idx > new_idx` only fires for a
  yearly source, whatever the target;
* the series is normalized to descending order (`sort_by_date(reverse=True)`,
  no force), so index `0` is the most recent row;
* with `end_of_period` every boundary index shifts by one;
* index `0` is prepended when `include_partial` *or the source frequency is
  coarser than daily* (`freq_idx > daily_idx` — the source index, not the
  target's);
* the last index is appended only when the source is coarser than daily;
* all of that is skipped when no boundary was found, leaving an empty
  selection. -/
def convert (ts : OrdTs) (new_freq : Freq) ( include_partial : Bool)
    (weekday : Option Int) : Except ConvErr OrdTs := do
  let series_dir := series_direction ts.dseries
  let (ds0, ts0) := sort_by_date ts.dseries ts.tseries true false
  let freq_idx ← hierIdx ts.frequency
  let new_idx ← hierIdx .q
  let daily_idx ← hierIdx .d
  if freq_idx > new_idx then throw .invalidConversionDirection
  let dates := ds0
  let f ← match indicatorOf new_freq with
    | some f => pure f
    | none => throw .keyError
  let selected0 := boundariesOf dates f weekday
  let n := dates.length
  let selected := convert_select selected0 ts.end_of_period
    include_partial freq_idx daily_idx n
  pure (convert_rebuild dates ts0 selected series_dir new_freq
    ts.end_of_period)

/-- `Timeseries.convert`: gates on the target frequency being a known
code, then hands off; the `weekday` keyword is passed through unchecked. -/
def Timeseries_convert (ts : OrdTs) (new_freq : Freq)
    ( include_partial : Bool) (weekday : Option Int) : Except ConvErr OrdTs :=
  if new_freq ∉ FREQ_IDAYTYPES ++ FREQ_DAYTYPES then
    .error .invalidNewFreq
  else convert ts new_freq include_partial weekday

/-! ## Claims -/

/-- C1: the claim says every conversion to an equal-or-finer target
frequency raises `InvalidConversionDirection`.  In the source the gate is
`freq_idx > new_idx` with `new_idx = HIERARCHY.index(FREQ_Q)` — the
quarterly constant instead of `new_freq` — so only a *yearly* source ever
trips it: a monthly series converted to daily sails through the gate and
comes back as an empty daily series, while the yearly source errors for
any target.  This contradicts both the claim and `convert`'s own
docstring ("Conversion only works from a higher frequency to a lower
frequency"). -/
theorem claim_C1_hierarchy_gate_only_yearly :
    convert ⟨[735994, 735963], [[1], [2]], .m, true⟩ .d true none =
      .ok ⟨[], [], .d, true⟩ ∧
    convert ⟨[735994, 735963], [[1], [2]], .y, true⟩ .m true none =
      .error .invalidConversionDirection := by
  constructor <;> rfl

/-- C2 counterexample: a non-empty daily series whose dates all fall in one
calendar month (2016-01-05, 2016-01-06) converted to monthly produces an
*empty* series for `include_partial=True` and `include_partial=False`
alike — the most recent row 735969 is in neither output, refuting "the
most recent input row is present in the output". -/
theorem claim_C2_counterexample :
    convert ⟨[735968, 735969], [[1], [2]], .d, true⟩ .m true none =
      .ok ⟨[], [], .m, true⟩ ∧
    convert ⟨[735968, 735969], [[1], [2]], .d, true⟩ .m false none =
      .ok ⟨[], [], .m, true⟩ := by
  constructor <;> rfl

/-- C3: the claim (and `row_no`'s docstring) promise the sentinel `-1`
without an exception when no row satisfies the bounded predicate and
`no_error=True`.  In the `closest=±1` branches the sentinel assignment is
not followed by an `else`, so the code falls through to
`selected.max()`/`selected.min()` on the empty selection and numpy raises;
only the `closest=0` branch honors the sentinel. -/
theorem claim_C3_no_error_still_raises :
    row_no [5] 3 (-1) true = .error .emptyReduction ∧
    row_no [5] 9 1 true = .error .emptyReduction ∧
    row_no [5] 3 0 true = .ok (-1) := by
  refine ⟨?_, ?_, ?_⟩ <;> rfl

/-- C6: the claim says `truncdate(start=a, finish=b)` with `a > b` selects
the same window as `truncdate(start=b, finish=a)`.  The source runs
`start = min(start, finish)` *before* `finish = max(start, finish)`, so the
max sees the already-clamped start and the window degenerates to
`[b, b]`: on dates `[10, 20, 30]`, bounds `(30, 10)` keep only the row at
`10`, while `(10, 30)` keep all three rows. -/
theorem claim_C6_truncdate_asymmetric :
    truncdate [10, 20, 30] [[1], [2], [3]] (some 30) (some 10) =
      .ok ([10], [[1]]) ∧
    truncdate [10, 20, 30] [[1], [2], [3]] (some 10) (some 30) =
      .ok ([10, 20, 30], [[1], [2], [3]]) := by
  constructor <;> rfl

/-- C4 counterexample: two series sharing the date 735964; `extend` with
`overlay=False` raises nothing — the source contains no `raise` — and
returns the union with `self`'s value `[20]` kept at the shared date. -/
theorem claim_C4_counterexample :
    extend [735963, 735964] [[10], [20]] [735964, 735965] [[99], [30]]
      false = ([735963, 735964, 735965], [[10], [20], [30]]) := by
  rfl

/-- C5 counterexample: `combine(discard=True)` performs no sort of any
kind; the result simply inherits the calling series' (truncated) date
order.  With the calling series' dates out of order — direction `-1` by
the endpoint comparison — the stacked result's rows are not sorted by
date in that direction, refuting "force-sorted after column stacking". -/
theorem claim_C5_counterexample :
    combine [30, 10, 20] [[1], [2], [3]] [([50, 60, 70], [[4], [5], [6]])]
      true none = .ok ([30, 10, 20], [[1, 4], [2, 5], [3, 6]]) ∧
    series_direction [30, 10, 20] = -1 ∧
    ¬ List.Sorted (· ≥ ·) ([30, 10, 20] : List Int) := by
  refine ⟨by rfl, by rfl, by decide⟩

/-- C7 counterexample: `weekday=9` is outside the valid range `0..6`, yet
neither `Timeseries.convert` nor `_weekday_test` validates it: the
conversion proceeds, the impossible weekday matches no date, no boundary
is found, and an empty weekly series is returned instead of an immediate
failure. -/
theorem claim_C7_counterexample :
    Timeseries_convert ⟨[735964, 735963], [[1], [2]], .d, false⟩ .w true
      (some 9) = .ok ⟨[], [], .w, false⟩ := by
  rfl

/-- `selected.max()` is the initial element or one of the rest. -/
theorem foldl_max_mem (l : List Nat) (a : Nat) :
    l.foldl Max.max a = a ∨ l.foldl Max.max a ∈ l := by
  induction l generalizing a with
  | nil => exact Or.inl rfl
  | cons b t ih =>
      rcases ih (Max.max a b) with h | h
      · rcases max_choice a b with hc | hc
        · exact Or.inl (by rw [List.foldl_cons, h, hc])
        · exact Or.inr (by rw [List.foldl_cons, h, hc]; exact List.mem_cons_self b t)
      · exact Or.inr (List.mem_cons_of_mem b h)

/-- `selected.min()` is the initial element or one of the rest. -/
theorem foldl_min_mem (l : List Nat) (a : Nat) :
    l.foldl Min.min a = a ∨ l.foldl Min.min a ∈ l := by
  induction l generalizing a with
  | nil => exact Or.inl rfl
  | cons b t ih =>
      rcases ih (Min.min a b) with h | h
      · rcases min_choice a b with hc | hc
        · exact Or.inl (by rw [List.foldl_cons, h, hc])
        · exact Or.inr (by rw [List.foldl_cons, h, hc]; exact List.mem_cons_self b t)
      · exact Or.inr (List.mem_cons_of_mem b h)

/-- Whatever index either bounded branch of `row_no` returns lies in the
`argwhere` selection. -/
theorem row_no_mem_selected (ds : List Int) (i : Int)
    (p : Nat → Bool) (sel : List Nat)
    (hsel : sel = (List.range ds.length).filter p)
    (hm : ∃ j rest, sel = j :: rest ∧
      (i = ((rest.foldl Max.max j : Nat) : Int) ∨
       i = ((rest.foldl Min.min j : Nat) : Int))) :
    0 ≤ i ∧ i.toNat < ds.length ∧ p i.toNat = true := by
  obtain ⟨j, rest, hcons, hval⟩ := hm
  have hmem : i.toNat ∈ sel := by
    rcases hval with hv | hv
    · rcases foldl_max_mem rest j with h | h
      · rw [hv, Int.toNat_natCast, h, hcons]; exact List.mem_cons_self _ _
      · rw [hv, Int.toNat_natCast, hcons]; exact List.mem_cons_of_mem _ h
    · rcases foldl_min_mem rest j with h | h
      · rw [hv, Int.toNat_natCast, h, hcons]; exact List.mem_cons_self _ _
      · rw [hv, Int.toNat_natCast, hcons]; exact List.mem_cons_of_mem _ h
  have h0 : 0 ≤ i := by
    rcases hval with hv | hv <;> rw [hv] <;> exact Int.natCast_nonneg _
  rw [hsel] at hmem
  have := List.mem_filter.mp hmem
  exact ⟨h0, List.mem_range.mp this.1, this.2⟩

/-- C8: when the bounded search returns a row index, the date there is on
the requested side of the target: at-or-before for `closest=-1`,
at-or-after for `closest=1`; no assumption on the series' order or
duplicate dates is needed, because the index always comes out of the
predicate-filtered selection. -/
theorem claim_C8_row_no_bounds (ds : List Int) (r : Int) (ne : Bool)
    (i : Int) :
    (row_no ds r (-1) ne = .ok i →
      0 ≤ i ∧ i.toNat < ds.length ∧ ds.getD i.toNat 0 ≤ r) ∧
    (row_no ds r 1 ne = .ok i →
      0 ≤ i ∧ i.toNat < ds.length ∧ r ≤ ds.getD i.toNat 0) := by
  constructor
  · intro h
    have hred : row_no ds r (-1) ne =
        (match (List.range ds.length).filter
            (fun j => decide (ds.getD j 0 ≤ r)) with
          | [] => if ne then Except.error RowNoErr.emptyReduction
                  else Except.error RowNoErr.dateNotFound
          | j :: rest =>
              if series_direction ds = 1 then
                Except.ok ((rest.foldl Max.max j : Nat) : Int)
              else Except.ok ((rest.foldl Min.min j : Nat) : Int)) := rfl
    rw [hred] at h
    rcases hsel : (List.range ds.length).filter
        (fun j => decide (ds.getD j 0 ≤ r)) with _ | ⟨j, rest⟩
    · rw [hsel] at h
      rcases ne with _ | _ <;> simp at h
    · rw [hsel] at h
      have hm : ∃ j' rest',
          (j :: rest : List Nat) = j' :: rest' ∧
          (i = ((rest'.foldl Max.max j' : Nat) : Int) ∨
           i = ((rest'.foldl Min.min j' : Nat) : Int)) := by
        refine ⟨j, rest, rfl, ?_⟩
        have h2 : (if series_direction ds = 1 then
              Except.ok ((rest.foldl Max.max j : Nat) : Int)
            else Except.ok ((rest.foldl Min.min j : Nat) : Int)) =
            Except.ok i := h
        by_cases hdir : series_direction ds = 1
        · rw [if_pos hdir] at h2
          exact Or.inl (Except.ok.inj h2).symm
        · rw [if_neg hdir] at h2
          exact Or.inr (Except.ok.inj h2).symm
      have := row_no_mem_selected ds i
        (fun j => decide (ds.getD j 0 ≤ r)) (j :: rest) hsel.symm hm
      exact ⟨this.1, this.2.1, of_decide_eq_true this.2.2⟩
  · intro h
    have hred : row_no ds r 1 ne =
        (match (List.range ds.length).filter
            (fun j => decide (r ≤ ds.getD j 0)) with
          | [] => if ne then Except.error RowNoErr.emptyReduction
                  else Except.error RowNoErr.dateNotFound
          | j :: rest =>
              if series_direction ds = 1 then
                Except.ok ((rest.foldl Min.min j : Nat) : Int)
              else Except.ok ((rest.foldl Max.max j : Nat) : Int)) := rfl
    rw [hred] at h
    rcases hsel : (List.range ds.length).filter
        (fun j => decide (r ≤ ds.getD j 0)) with _ | ⟨j, rest⟩
    · rw [hsel] at h
      rcases ne with _ | _ <;> simp at h
    · rw [hsel] at h
      have hm : ∃ j' rest',
          (j :: rest : List Nat) = j' :: rest' ∧
          (i = ((rest'.foldl Max.max j' : Nat) : Int) ∨
           i = ((rest'.foldl Min.min j' : Nat) : Int)) := by
        refine ⟨j, rest, rfl, ?_⟩
        have h2 : (if series_direction ds = 1 then
              Except.ok ((rest.foldl Min.min j : Nat) : Int)
            else Except.ok ((rest.foldl Max.max j : Nat) : Int)) =
            Except.ok i := h
        by_cases hdir : series_direction ds = 1
        · rw [if_pos hdir] at h2
          exact Or.inr (Except.ok.inj h2).symm
        · rw [if_neg hdir] at h2
          exact Or.inl (Except.ok.inj h2).symm
      have := row_no_mem_selected ds i
        (fun j => decide (r ≤ ds.getD j 0)) (j :: rest) hsel.symm hm
      exact ⟨this.1, this.2.1, of_decide_eq_true this.2.2⟩

/-- C8 witness: on the ascending series `[5, 7]` with target `6`, the
at-or-before search returns row `0` (date `5 ≤ 6`) and the at-or-after
search returns row `1` (date `7 ≥ 6`). -/
theorem claim_C8_row_no_bounds_witness :
    (0 ≤ (0 : Int) ∧ (0 : Int).toNat < ([5, 7] : List Int).length ∧
      ([5, 7] : List Int).getD (0 : Int).toNat 0 ≤ 6) ∧
    (0 ≤ (1 : Int) ∧ (1 : Int).toNat < ([5, 7] : List Int).length ∧
      6 ≤ ([5, 7] : List Int).getD (1 : Int).toNat 0) :=
  ⟨(claim_C8_row_no_bounds [5, 7] 6 false 0).1 (by rfl),
   (claim_C8_row_no_bounds [5, 7] 6 false 1).2 (by rfl)⟩

/-! ## Length-invariant lemmas (claim C9) -/

/-- `trunc` slices dates and values identically. -/
theorem trunc_len (ds : List Int) (ts : List Row) (st fin : Option Nat)
    (h : ds.length = ts.length) :
    (trunc ds ts st fin).1.length = (trunc ds ts st fin).2.length := by
  unfold trunc
  split
  · simp [pySlice, h]
  · split
    · simp [h]
    · split
      · simp [h]
      · simpa using h

/-- The resolved window of `truncdate_core` slices both arrays alike. -/
theorem truncdate_core_len (ds : List Int) (ts : List Row)
    (st fin : Option Int) (out : List Int × List Row)
    (h : ds.length = ts.length)
    (hok : truncdate_core ds ts st fin = .ok out) :
    out.1.length = out.2.length := by
  unfold truncdate_core at hok
  split at hok
  · rcases hr1 : row_no ds (Min.min (st.getD 0) (fin.getD 0)) 1 false
      with e | sr
    · rw [hr1] at hok; cases hok
    · rw [hr1] at hok
      rcases hr2 : row_no ds
          (Max.max (Min.min (st.getD 0) (fin.getD 0)) (fin.getD 0))
          (-1) false with e | fr
      · rw [hr2] at hok; cases hok
      · rw [hr2] at hok
        cases hok
        exact trunc_len ds ts _ _ h
  · split at hok
    · rcases hr1 : row_no ds (st.getD 0) 1 false with e | sr
      · rw [hr1] at hok; cases hok
      · rw [hr1] at hok; cases hok; exact trunc_len ds ts _ _ h
    · split at hok
      · rcases hr1 : row_no ds (fin.getD 0) (-1) false with e | fr
        · rw [hr1] at hok; cases hok
        · rw [hr1] at hok; cases hok; exact trunc_len ds ts _ _ h
      · cases hok; exact h

/-- `truncdate` preserves the paired-length invariant on success. -/
theorem truncdate_len (ds : List Int) (ts : List Row)
    (st fin : Option Int) (out : List Int × List Row)
    (h : ds.length = ts.length)
    (hok : truncdate ds ts st fin = .ok out) :
    out.1.length = out.2.length := by
  unfold truncdate at hok
  split at hok
  · rcases hc : truncdate_core ds.reverse ts.reverse st fin with e | r
    · rw [hc] at hok; cases hok
    · rw [hc] at hok; cases hok
      have := truncdate_core_len ds.reverse ts.reverse st fin r
        (by simpa using h) hc
      simpa [reverseTs] using this
  · rcases hc : truncdate_core ds ts st fin with e | r
    · rw [hc] at hok; cases hok
    · rw [hc] at hok; cases hok
      exact truncdate_core_len ds ts st fin _ h hc

/-- The maximum that `max(max_lens)` computes is attained in the list. -/
theorem foldr_max_mem (l : List Nat) (h : l ≠ []) :
    l.foldr Max.max 0 ∈ l := by
  induction l with
  | nil => exact absurd rfl h
  | cons a t ih =>
      cases t with
      | nil => simp
      | cons b t' =>
          rw [List.foldr_cons]
          rcases max_choice a ((b :: t').foldr Max.max 0) with hc | hc
          · rw [hc]; exact List.mem_cons_self _ _
          · rw [hc]
            exact List.mem_cons_of_mem _ (ih (by simp))

/-- Stacking equal-row-count blocks keeps the first block's row count. -/
theorem foldl_zipWith_append_len (n : Nat) (rest : List (List Row)) :
    ∀ acc : List Row, acc.length = n → (∀ u ∈ rest, u.length = n) →
    (rest.foldl (fun a u => List.zipWith (· ++ ·) a u) acc).length = n := by
  induction rest with
  | nil => intro acc ha _; simpa using ha
  | cons u t ih =>
      intro acc ha hall
      rw [List.foldl_cons]
      refine ih _ ?_ (fun v hv => hall v (List.mem_cons_of_mem _ hv))
      rw [List.length_zipWith, ha, hall u (List.mem_cons_self _ _)]
      exact Nat.min_self n

/-- `np.hstack` output has the first block's row count. -/
theorem hstackAll_len (t : List Row) (rest : List (List Row))
    (st : List Row) (h : hstackAll (t :: rest) = .ok st) :
    st.length = t.length := by
  have hred : hstackAll (t :: rest) =
      (if rest.any (fun u => u.length ≠ t.length) then
        Except.error CombineErr.hstackMismatch
      else
        Except.ok (rest.foldl (fun a u => List.zipWith (· ++ ·) a u) t)) :=
    rfl
  rw [hred] at h
  by_cases hany : rest.any (fun u => u.length ≠ t.length)
  · rw [if_pos hany] at h; cases h
  · rw [if_neg hany] at h
    cases h
    refine foldl_zipWith_append_len t.length rest t rfl ?_
    intro u hu
    by_contra hne
    exact hany (List.any_eq_true.mpr ⟨u, hu, by simpa using hne⟩)

/-- Members selected through `getD` at a valid index are members. -/
theorem getD_mem (l : List (List Int × List Row)) (i : Nat)
    (hi : i < l.length) :
    l.getD i ([], []) ∈ l := by
  rw [List.getD_eq_getElem l ([], []) hi]
  exact List.getElem_mem hi

/-- The reference series of the pad branch: its value array realizes the
maximum length. -/
theorem ref_len_eq (tss : List (List Int × List Row)) (hne : tss ≠ []) :
    (tss.getD
        ((tss.map (fun p => p.2.length)).indexOf
          ((tss.map (fun p => p.2.length)).foldr Max.max 0)) ([], [])).2.length
      = (tss.map (fun p => p.2.length)).foldr Max.max 0 := by
  have hmem : (tss.map (fun p => p.2.length)).foldr Max.max 0 ∈
      tss.map (fun p => p.2.length) :=
    foldr_max_mem _ (fun hmap => hne (List.map_eq_nil_iff.mp hmap))
  have hidx : (tss.map (fun p => p.2.length)).indexOf
        ((tss.map (fun p => p.2.length)).foldr Max.max 0) <
      (tss.map (fun p => p.2.length)).length :=
    List.indexOf_lt_length.mpr hmem
  have hidx' : (tss.map (fun p => p.2.length)).indexOf
        ((tss.map (fun p => p.2.length)).foldr Max.max 0) < tss.length := by
    simpa using hidx
  rw [List.getD_eq_getElem tss ([], []) hidx']
  have h1 := List.getElem_indexOf hidx
  rw [List.getElem_map] at h1
  exact h1

/-- The prepared stack of `combine` is nonempty and its first series (the
caller's clone, possibly truncated or padded) still pairs dates with
values one-to-one. -/
theorem combine_prepare_head (sds : List Int) (sts : List Row)
    (others : List (List Int × List Row)) (discard : Bool)
    (pad : Option Int) (tss' : List (List Int × List Row))
    (hs : sds.length = sts.length)
    (hall : ∀ p ∈ others, (Prod.fst p).length = (Prod.snd p).length)
    (hok : combine_prepare sds sts others discard pad = .ok tss') :
    ∃ hd tl, tss' = hd :: tl ∧ hd.1.length = hd.2.length := by
  unfold combine_prepare at hok
  split at hok
  · split at hok
    · split at hok
      · cases hok
      · cases hok
        exact ⟨(sds, sts), others, rfl, hs⟩
    · cases hok
      rw [List.map_cons]
      refine ⟨_, _, rfl, ?_⟩
      dsimp only
      split
      · -- the caller's series is shorter than the reference: padded
        rename_i hpad
        have hne : ((sds, sts) :: others) ≠ [] := List.cons_ne_nil _ _
        have href2 := ref_len_eq ((sds, sts) :: others) hne
        have hrefmem : (((sds, sts) :: others).getD
            ((((sds, sts) :: others).map (fun p => p.2.length)).indexOf
              ((((sds, sts) :: others).map
                (fun p => p.2.length)).foldr Max.max 0)) ([], [])) ∈
            ((sds, sts) :: others) := by
          apply getD_mem
          have hmem : (((sds, sts) :: others).map
              (fun p => p.2.length)).foldr Max.max 0 ∈
              ((sds, sts) :: others).map (fun p => p.2.length) :=
            foldr_max_mem _ (by simp)
          have := List.indexOf_lt_length.mpr hmem
          simpa using this
        have href1 : (((sds, sts) :: others).getD
            ((((sds, sts) :: others).map (fun p => p.2.length)).indexOf
              ((((sds, sts) :: others).map
                (fun p => p.2.length)).foldr Max.max 0)) ([], [])).1.length =
            (((sds, sts) :: others).getD
            ((((sds, sts) :: others).map (fun p => p.2.length)).indexOf
              ((((sds, sts) :: others).map
                (fun p => p.2.length)).foldr Max.max 0)) ([], [])).2.length := by
          rcases List.mem_cons.mp hrefmem with hh | hh
          · rw [hh]; exact hs
          · exact hall _ hh
        simp only [List.length_append, List.length_drop,
          List.length_replicate]
        rw [href1, href2, hs]
      · exact hs
  · cases hok
    rw [List.map_cons]
    exact ⟨_, _, rfl, trunc_len sds sts _ _ hs⟩

/-- `combine` preserves the paired-length invariant on success: the result's
dates are the first series' dates and the stacked values keep the first
series' row count. -/
theorem combine_len (sds : List Int) (sts : List Row)
    (others : List (List Int × List Row)) (discard : Bool)
    (pad : Option Int) (out : List Int × List Row)
    (hs : sds.length = sts.length)
    (hall : ∀ p ∈ others, (Prod.fst p).length = (Prod.snd p).length)
    (hok : combine sds sts others discard pad = .ok out) :
    out.1.length = out.2.length := by
  unfold combine at hok
  rcases hp : combine_prepare sds sts others discard pad with e | tss'
  · rw [hp] at hok; cases hok
  · rw [hp] at hok
    obtain ⟨hd, tl, htss, hhd⟩ :=
      combine_prepare_head sds sts others discard pad tss' hs hall hp
    subst htss
    have hok2 : (match hstackAll (hd.2 :: tl.map Prod.snd) with
        | Except.error e => Except.error e
        | Except.ok stacked => Except.ok (hd.1, stacked)) =
        Except.ok out := hok
    rcases hh : hstackAll (hd.2 :: tl.map Prod.snd) with e | stacked
    · rw [hh] at hok2; cases hok2
    · rw [hh] at hok2; cases hok2
      have hlen := hstackAll_len hd.2 (tl.map Prod.snd) stacked hh
      show hd.1.length = stacked.length
      rw [hhd, hlen]

/-- C9: every mutating operation keeps `len(dseries) == len(tseries)`.
The dict-rebuild paths (`sort_by_date(force)`, `add(match=False)`,
`replace`, `extend`) emit both lists from one sorted item list; `reverse`
and `trunc` transform both arrays alike; `truncdate` reduces to `trunc`;
`combine` pairs the caller's (possibly truncated or padded) dates with a
stack whose row count equals that series' value count.  The binary
operations take the other series' own invariant as a hypothesis where it
matters (`combine`'s inputs). -/
theorem claim_C9_length_invariant (sds ods : List Int)
    (sts ots : List Row) (hs : sds.length = sts.length) :
    (∀ rev force, (sort_by_date sds sts rev force).1.length =
        (sort_by_date sds sts rev force).2.length) ∧
    ((reverseTs sds sts).1.length = (reverseTs sds sts).2.length) ∧
    (∀ st fin, (trunc sds sts st fin).1.length =
        (trunc sds sts st fin).2.length) ∧
    (∀ st fin out, truncdate sds sts st fin = .ok out →
        out.1.length = out.2.length) ∧
    (∀ others discard pad out,
        (∀ p ∈ others, (Prod.fst p).length = (Prod.snd p).length) →
        combine sds sts others discard pad = .ok out →
        out.1.length = out.2.length) ∧
    (∀ mtch out, add sds sts ods ots mtch = .ok out →
        out.1.length = out.2.length) ∧
    (∀ mtch, (replace sds sts ods ots mtch).1.length =
        (replace sds sts ods ots mtch).2.length) ∧
    (∀ ov, (extend sds sts ods ots ov).1.length =
        (extend sds sts ods ots ov).2.length) := by
  refine ⟨?_, ?_, ?_, ?_, ?_, ?_, ?_, ?_⟩
  · intro rev force
    unfold sort_by_date
    split
    · simp
    · split
      · exact hs
      · split
        · exact hs
        · simp [reverseTs, hs]
  · simp [reverseTs, hs]
  · intro st fin
    exact trunc_len sds sts st fin hs
  · intro st fin out hok
    exact truncdate_len sds sts st fin out hs hok
  · intro others discard pad out hall hok
    exact combine_len sds sts others discard pad out hs hall hok
  · intro mtch out hok
    unfold add at hok
    split at hok
    · split at hok
      · cases hok
      · split at hok
        · cases hok
        · cases hok
          rename_i hlen hds
          show sds.length =
            (List.zipWith (List.zipWith (· + ·)) sts ots).length
          have h1 : sts.length = ots.length := not_ne_iff.mp hlen
          rw [List.length_zipWith, ← h1, Nat.min_self]
          exact hs
    · cases hok
      simp
  · intro mtch
    unfold replace
    simp
  · intro ov
    unfold extend
    simp

/-- C9 witness: on the series `([1, 2], [[5], [6]])` and
`([2, 3], [[7], [8]])` the forced sort and the overlay extend both return
equal-length date and value lists. -/
theorem claim_C9_length_invariant_witness :
    ((sort_by_date [1, 2] [[5], [6]] false true).1.length =
      (sort_by_date [1, 2] [[5], [6]] false true).2.length) ∧
    ((extend [1, 2] [[5], [6]] [2, 3] [[7], [8]] true).1.length =
      (extend [1, 2] [[5], [6]] [2, 3] [[7], [8]] true).2.length) :=
  ⟨(claim_C9_length_invariant [1, 2] [2, 3] [[5], [6]] [[7], [8]]
      rfl).1 false true,
   (claim_C9_length_invariant [1, 2] [2, 3] [[5], [6]] [[7], [8]]
      rfl).2.2.2.2.2.2.2 true⟩

/-! ## Dict key-set lemmas (claims C4 and C10) -/

/-- Inserting into the dict either rewrites an existing key in place or
appends the new key. -/
theorem keys_dictInsert (d : List (Int × Row)) (k : Int) (v : Row) :
    (dictInsert d k v).map Prod.fst =
      if d.any (fun p => p.1 = k) then d.map Prod.fst
      else d.map Prod.fst ++ [k] := by
  unfold dictInsert
  split
  · rw [List.map_map]
    apply List.map_congr_left
    intro p _
    by_cases hpk : p.1 = k
    · simp [hpk]
    · simp [hpk]
  · simp

/-- `dictAdd` has the same key behavior as `dictInsert`. -/
theorem keys_dictAdd (d : List (Int × Row)) (k : Int) (v : Row) :
    (dictAdd d k v).map Prod.fst =
      if d.any (fun p => p.1 = k) then d.map Prod.fst
      else d.map Prod.fst ++ [k] := by
  unfold dictAdd
  split
  · rw [List.map_map]
    apply List.map_congr_left
    intro p _
    by_cases hpk : p.1 = k
    · simp [hpk]
    · simp [hpk]
  · simp

/-- `dictUpdateOnly` never changes the key list. -/
theorem keys_dictUpdateOnly (d : List (Int × Row)) (k : Int) (v : Row) :
    (dictUpdateOnly d k v).map Prod.fst = d.map Prod.fst := by
  unfold dictUpdateOnly
  split
  · rw [List.map_map]
    apply List.map_congr_left
    intro p _
    by_cases hpk : p.1 = k
    · simp [hpk]
    · simp [hpk]
  · rfl

/-- A key the dict's `in` test misses is absent from the key list. -/
theorem not_mem_keys_of_any_false (d : List (Int × Row)) (k : Int)
    (h : ¬ (d.any (fun p => p.1 = k) = true)) :
    k ∉ d.map Prod.fst := by
  intro hk
  obtain ⟨p, hp, hpk⟩ := List.mem_map.mp hk
  exact h (List.any_eq_true.mpr ⟨p, hp, by simp [hpk]⟩)

/-- A key the dict's `in` test finds is in the key list. -/
theorem mem_keys_of_any_true (d : List (Int × Row)) (k : Int)
    (h : d.any (fun p => p.1 = k) = true) :
    k ∈ d.map Prod.fst := by
  obtain ⟨p, hp, hpk⟩ := List.any_eq_true.mp h
  exact List.mem_map.mpr ⟨p, hp, by simpa using hpk⟩

/-- Dict update steps that insert-or-overwrite key `k`: the key set gains
`k` and stays duplicate-free.  Shared by `dictInsert` and `dictAdd`. -/
theorem dict_step_keys (d : List (Int × Row)) (k : Int) (_v : Row)
    (d' : List (Int × Row))
    (hd' : d'.map Prod.fst =
      (if d.any (fun p => p.1 = k) then d.map Prod.fst
       else d.map Prod.fst ++ [k])) :
    (d'.map Prod.fst).toFinset = insert k (d.map Prod.fst).toFinset ∧
    ((d.map Prod.fst).Nodup → (d'.map Prod.fst).Nodup) := by
  rw [hd']
  by_cases hany : d.any (fun p => p.1 = k) = true
  · rw [if_pos hany]
    refine ⟨?_, fun hnd => hnd⟩
    exact (Finset.insert_eq_self.mpr
      (List.mem_toFinset.mpr (mem_keys_of_any_true d k hany))).symm
  · rw [if_neg hany]
    constructor
    · ext x
      simp [or_comm]
    · intro hnd
      rw [List.nodup_append]
      exact ⟨hnd, List.nodup_singleton k,
        by simpa using not_mem_keys_of_any_false d k hany⟩

/-- Folding insert-or-overwrite steps over a pair list unions the keys in
and keeps them duplicate-free. -/
theorem fold_dict_keys (step : List (Int × Row) → Int × Row →
      List (Int × Row))
    (hstep : ∀ d p, ((step d p).map Prod.fst).toFinset =
        insert p.1 (d.map Prod.fst).toFinset)
    (hnd : ∀ d p, (d.map Prod.fst).Nodup → ((step d p).map Prod.fst).Nodup)
    (l : List (Int × Row)) : ∀ d : List (Int × Row),
    ((l.foldl step d).map Prod.fst).toFinset =
        (d.map Prod.fst).toFinset ∪ (l.map Prod.fst).toFinset ∧
    ((d.map Prod.fst).Nodup → ((l.foldl step d).map Prod.fst).Nodup) := by
  induction l with
  | nil => intro d; simp
  | cons p t ih =>
      intro d
      rw [List.foldl_cons]
      obtain ⟨hfin, hnodup⟩ := ih (step d p)
      constructor
      · rw [hfin, hstep d p, List.map_cons, List.toFinset_cons,
          Finset.insert_union, Finset.union_insert]
      · intro hd
        exact hnodup (hnd d p hd)

/-- `as_dict` has duplicate-free keys whose set is the set of dates
(given the length invariant, every date reaches the dict). -/
theorem as_dict_keys (ds : List Int) (ts : List Row)
    (h : ds.length = ts.length) :
    ((as_dict ds ts).map Prod.fst).toFinset = ds.toFinset ∧
    ((as_dict ds ts).map Prod.fst).Nodup := by
  have hstep := fold_dict_keys (fun d p => dictInsert d p.1 p.2)
    (fun d p => (dict_step_keys d p.1 p.2 _ (keys_dictInsert d p.1 p.2)).1)
    (fun d p hd => (dict_step_keys d p.1 p.2 _
      (keys_dictInsert d p.1 p.2)).2 hd)
    (ds.zip ts) []
  unfold as_dict
  refine ⟨?_, hstep.2 (by simp)⟩
  rw [hstep.1]
  rw [List.map_fst_zip ds ts (le_of_eq h)]
  simp

/-- Sorted insertion permutes nothing away. -/
theorem insertSorted_perm (r : Bool) (p : Int × Row)
    (l : List (Int × Row)) : (insertSorted r p l).Perm (p :: l) := by
  induction l with
  | nil => exact List.Perm.refl _
  | cons q t ih =>
      unfold insertSorted
      split
      · split
        · exact List.Perm.refl _
        · exact (ih.cons q).trans (List.Perm.swap p q t)
      · split
        · exact List.Perm.refl _
        · exact (ih.cons q).trans (List.Perm.swap p q t)

/-- `sorted(d.items())` is a permutation of the item list. -/
theorem sortPairs_perm (r : Bool) (l : List (Int × Row)) :
    (sortPairs r l).Perm l := by
  induction l with
  | nil => exact List.Perm.refl _
  | cons p t ih =>
      unfold sortPairs
      rw [List.foldr_cons]
      exact (insertSorted_perm r p _).trans (ih.cons p)

/-- A duplicate-free association list is as long as its key set. -/
theorem assoc_len_card (d : List (Int × Row))
    (hnd : (d.map Prod.fst).Nodup) :
    d.length = (d.map Prod.fst).toFinset.card := by
  rw [List.toFinset_card_of_nodup hnd, List.length_map]

/-- `replace(match=True)` folds a key-preserving update: keys unchanged. -/
theorem fold_updateOnly_keys (l : List (Int × Row)) :
    ∀ d : List (Int × Row),
    ((l.foldl (fun d p => dictUpdateOnly d p.1 p.2) d).map Prod.fst) =
      d.map Prod.fst := by
  induction l with
  | nil => intro d; rfl
  | cons p t ih =>
      intro d
      rw [List.foldl_cons, ih (dictUpdateOnly d p.1 p.2),
        keys_dictUpdateOnly]

/-- The key-step facts for the `extend` merge loop. -/
theorem extend_step_keys (ov : Bool) (d : List (Int × Row))
    (p : Int × Row) :
    (((if d.any (fun q => q.1 = p.1) then
          if ov then dictInsert d p.1 p.2 else d
        else dictInsert d p.1 p.2).map Prod.fst).toFinset =
      insert p.1 (d.map Prod.fst).toFinset) ∧
    ((d.map Prod.fst).Nodup →
      ((if d.any (fun q => q.1 = p.1) then
          if ov then dictInsert d p.1 p.2 else d
        else dictInsert d p.1 p.2).map Prod.fst).Nodup) := by
  by_cases hany : d.any (fun q => q.1 = p.1) = true
  · rw [if_pos hany]
    by_cases hov : ov = true
    · rw [if_pos hov]
      exact ⟨(dict_step_keys d p.1 p.2 _ (keys_dictInsert d p.1 p.2)).1,
        (dict_step_keys d p.1 p.2 _ (keys_dictInsert d p.1 p.2)).2⟩
    · rw [if_neg hov]
      refine ⟨?_, fun hnd => hnd⟩
      exact (Finset.insert_eq_self.mpr (List.mem_toFinset.mpr
        (mem_keys_of_any_true d p.1 hany))).symm
  · rw [if_neg hany]
    exact ⟨(dict_step_keys d p.1 p.2 _ (keys_dictInsert d p.1 p.2)).1,
      (dict_step_keys d p.1 p.2 _ (keys_dictInsert d p.1 p.2)).2⟩

/-- C10: the rebuild through the dict collapses duplicate dates —
`sort_by_date(force=True)` returns exactly one row per distinct date code,
and the dict-rebuild paths of `extend`, `replace` and `add(match=False)`
produce one row per distinct date of the keys they union.  (The dict is
keyed by `str(date)`, which is injective on the integer codes, so counting
distinct codes and distinct keys is the same.) -/
theorem claim_C10_dict_collapse (sds ods : List Int)
    (sts ots : List Row) (hs : sds.length = sts.length)
    (ho : ods.length = ots.length) :
    (∀ rev, (sort_by_date sds sts rev true).1.length =
        sds.toFinset.card) ∧
    (∀ ov, (extend sds sts ods ots ov).1.length =
        (sds.toFinset ∪ ods.toFinset).card) ∧
    ((replace sds sts ods ots false).1.length =
        (sds.toFinset ∪ ods.toFinset).card) ∧
    ((replace sds sts ods ots true).1.length = sds.toFinset.card) ∧
    (∀ out, add sds sts ods ots false = .ok out →
        out.1.length = (sds.toFinset ∪ ods.toFinset).card) := by
  obtain ⟨hsfin, hsnd⟩ := as_dict_keys sds sts hs
  obtain ⟨hofin, hond⟩ := as_dict_keys ods ots ho
  refine ⟨?_, ?_, ?_, ?_, ?_⟩
  · intro rev
    rw [show (sort_by_date sds sts rev true).1 =
        (sortPairs rev (as_dict sds sts)).map Prod.fst from rfl]
    rw [List.length_map, (sortPairs_perm rev _).length_eq]
    rw [assoc_len_card _ hsnd, hsfin]
  · intro ov
    rw [show (extend sds sts ods ots ov).1 =
        (sortPairs (series_direction sds = -1)
          ((as_dict ods ots).foldl
            (fun d p =>
              if d.any (fun q => q.1 = p.1) then
                if ov then dictInsert d p.1 p.2 else d
              else dictInsert d p.1 p.2)
            (as_dict sds sts))).map Prod.fst from rfl]
    rw [List.length_map, (sortPairs_perm _ _).length_eq]
    obtain ⟨hfin, hnd⟩ := fold_dict_keys _
      (fun d p => (extend_step_keys ov d p).1)
      (fun d p hd => (extend_step_keys ov d p).2 hd)
      (as_dict ods ots) (as_dict sds sts)
    rw [assoc_len_card _ (hnd hsnd), hfin, hsfin, hofin]
  · rw [show (replace sds sts ods ots false).1 =
        (sortPairs (series_direction sds = -1)
          ((as_dict ods ots).foldl (fun d p => dictInsert d p.1 p.2)
            (as_dict sds sts))).map Prod.fst from rfl]
    rw [List.length_map, (sortPairs_perm _ _).length_eq]
    obtain ⟨hfin, hnd⟩ := fold_dict_keys _
      (fun d p => (dict_step_keys d p.1 p.2 _ (keys_dictInsert d p.1 p.2)).1)
      (fun d p hd =>
        (dict_step_keys d p.1 p.2 _ (keys_dictInsert d p.1 p.2)).2 hd)
      (as_dict ods ots) (as_dict sds sts)
    rw [assoc_len_card _ (hnd hsnd), hfin, hsfin, hofin]
  · rw [show (replace sds sts ods ots true).1 =
        (sortPairs (series_direction sds = -1)
          ((as_dict ods ots).foldl (fun d p => dictUpdateOnly d p.1 p.2)
            (as_dict sds sts))).map Prod.fst from rfl]
    rw [List.length_map, (sortPairs_perm _ _).length_eq]
    have hkeys := fold_updateOnly_keys (as_dict ods ots) (as_dict sds sts)
    have hnd : (((as_dict ods ots).foldl
        (fun d p => dictUpdateOnly d p.1 p.2)
        (as_dict sds sts)).map Prod.fst).Nodup := by
      rw [hkeys]; exact hsnd
    rw [assoc_len_card _ hnd, hkeys, hsfin]
  · intro out hok
    have hred : add sds sts ods ots false = Except.ok
        ((sortPairs (series_direction sds = -1)
          ((as_dict ods ots).foldl (fun d p => dictAdd d p.1 p.2)
            (as_dict sds sts))).map Prod.fst,
         (sortPairs (series_direction sds = -1)
          ((as_dict ods ots).foldl (fun d p => dictAdd d p.1 p.2)
            (as_dict sds sts))).map Prod.snd) := rfl
    rw [hred] at hok
    cases hok
    show ((sortPairs _ _).map Prod.fst).length = _
    rw [List.length_map, (sortPairs_perm _ _).length_eq]
    obtain ⟨hfin, hnd⟩ := fold_dict_keys _
      (fun d p => (dict_step_keys d p.1 p.2 _ (keys_dictAdd d p.1 p.2)).1)
      (fun d p hd =>
        (dict_step_keys d p.1 p.2 _ (keys_dictAdd d p.1 p.2)).2 hd)
      (as_dict ods ots) (as_dict sds sts)
    rw [assoc_len_card _ (hnd hsnd), hfin, hsfin, hofin]

/-- C10 witness: `[7, 7, 9]` holds a duplicated date; the forced sort
collapses it to two rows, and the non-overlay extend against `[9, 10]`
yields three rows — one per distinct date. -/
theorem claim_C10_dict_collapse_witness :
    ((sort_by_date [7, 7, 9] [[1], [2], [3]] false true).1.length =
      ([7, 7, 9] : List Int).toFinset.card) ∧
    ((extend [7, 7, 9] [[1], [2], [3]] [9, 10] [[4], [5]] false).1.length =
      (([7, 7, 9] : List Int).toFinset ∪
        ([9, 10] : List Int).toFinset).card) :=
  ⟨(claim_C10_dict_collapse [7, 7, 9] [9, 10] [[1], [2], [3]] [[4], [5]]
      rfl rfl).1 false,
   (claim_C10_dict_collapse [7, 7, 9] [9, 10] [[1], [2], [3]] [[4], [5]]
      rfl rfl).2.1 false⟩

/-! ## Amended-claim support -/

/-- The non-overlay merge loop of `extend` never disturbs an existing
entry: a colliding date is skipped, a fresh date is appended. -/
theorem fold_mem_preserved (l : List (Int × Row)) (k : Int) (v : Row) :
    ∀ d : List (Int × Row), (k, v) ∈ d →
    (k, v) ∈ l.foldl
      (fun d p => if d.any (fun q => q.1 = p.1) then d
        else dictInsert d p.1 p.2) d := by
  induction l with
  | nil => intro d h; exact h
  | cons p t ih =>
      intro d h
      rw [List.foldl_cons]
      apply ih
      by_cases hany : d.any (fun q => q.1 = p.1) = true
      · rw [if_pos hany]; exact h
      · rw [if_neg hany]
        unfold dictInsert
        rw [if_neg hany]
        exact List.mem_append_left _ h

/-- Rezipping the two unzipped columns of an item list restores it. -/
theorem zip_map_fst_snd (s : List (Int × Row)) :
    (s.map Prod.fst).zip (s.map Prod.snd) = s := by
  rw [List.zip_map']
  simp

/-- C4 amended: `extend(ts, overlay=False)` raises nothing (the source has
no `raise`); for a date present in both series the result keeps `self`'s
value — every `(date, value)` entry of `self`'s dict survives into the
rebuilt series. -/
theorem claim_C4_amended_extend_keeps_self (sds ods : List Int)
    (sts ots : List Row) (k : Int) (v : Row)
    (hkv : (k, v) ∈ as_dict sds sts) :
    (k, v) ∈ (extend sds sts ods ots false).1.zip
      (extend sds sts ods ots false).2 := by
  have hred : extend sds sts ods ots false =
      ((sortPairs (series_direction sds = -1)
          ((as_dict ods ots).foldl
            (fun d p => if d.any (fun q => q.1 = p.1) then d
              else dictInsert d p.1 p.2)
            (as_dict sds sts))).map Prod.fst,
       (sortPairs (series_direction sds = -1)
          ((as_dict ods ots).foldl
            (fun d p => if d.any (fun q => q.1 = p.1) then d
              else dictInsert d p.1 p.2)
            (as_dict sds sts))).map Prod.snd) := rfl
  rw [hred]
  dsimp only
  rw [zip_map_fst_snd]
  exact ((sortPairs_perm _ _).mem_iff).mpr
    (fold_mem_preserved (as_dict ods ots) k v (as_dict sds sts) hkv)

/-- C4 amended witness: date `2` is in both series; the non-overlay extend
keeps `self`'s value `[20]` there. -/
theorem claim_C4_amended_extend_keeps_self_witness :
    ((2 : Int), ([20] : Row)) ∈
      (extend [1, 2] [[10], [20]] [2, 3] [[99], [30]] false).1.zip
      (extend [1, 2] [[10], [20]] [2, 3] [[99], [30]] false).2 :=
  claim_C4_amended_extend_keeps_self [1, 2] [2, 3] [[10], [20]]
    [[99], [30]] 2 [20] (by decide)

/-- A successful `np.hstack` required every block to match the first's
row count. -/
theorem hstackAll_ok_lengths (t : List Row) (rest : List (List Row))
    (st : List Row) (h : hstackAll (t :: rest) = .ok st) :
    ∀ u ∈ rest, u.length = t.length := by
  have hred : hstackAll (t :: rest) =
      (if rest.any (fun u => u.length ≠ t.length) then
        Except.error CombineErr.hstackMismatch
      else
        Except.ok (rest.foldl (fun a u => List.zipWith (· ++ ·) a u) t)) :=
    rfl
  rw [hred] at h
  by_cases hany : rest.any (fun u => u.length ≠ t.length)
  · rw [if_pos hany] at h; cases h
  · intro u hu
    by_contra hne
    exact hany (List.any_eq_true.mpr ⟨u, hu, by simpa using hne⟩)

/-- Folding `min` over copies of the initial value is the identity. -/
theorem foldl_min_const (a : Nat) (l : List Nat)
    (h : ∀ x ∈ l, x = a) : l.foldl Min.min a = a := by
  induction l with
  | nil => rfl
  | cons x t ih =>
      rw [List.foldl_cons, h x (List.mem_cons_self _ _), Nat.min_self]
      exact ih (fun y hy => h y (List.mem_cons_of_mem _ hy))

/-- C5 amended: `combine(discard=True)` performs no sort at all — the
result's dates are simply the first `min`-length dates of the calling
series, so the result is sorted in the caller's direction exactly when the
caller's dates were already sorted that way. -/
theorem claim_C5_amended_combine_take (sds : List Int) (sts : List Row)
    (others : List (List Int × List Row)) (out : List Int × List Row)
    (hs : sds.length = sts.length)
    (hok : combine sds sts others true none = .ok out) :
    out.1 = sds.take
      ((others.map (fun p => p.2.length)).foldl Min.min sts.length) ∧
    (List.Sorted (· ≥ ·) sds → List.Sorted (· ≥ ·) out.1) ∧
    (List.Sorted (· ≤ ·) sds → List.Sorted (· ≤ ·) out.1) := by
  have hred : combine sds sts others true none =
      (match hstackAll ((trunc sds sts none
          (some ((others.map (fun p => p.2.length)).foldl Min.min
            sts.length))).2 ::
          (others.map (fun p => trunc p.1 p.2 none
            (some ((others.map (fun p => p.2.length)).foldl Min.min
              sts.length)))).map Prod.snd) with
        | .error e => .error e
        | .ok stacked => .ok ((trunc sds sts none
            (some ((others.map (fun p => p.2.length)).foldl Min.min
              sts.length))).1, stacked)) := rfl
  rw [hred] at hok
  rcases hh : hstackAll ((trunc sds sts none
      (some ((others.map (fun p => p.2.length)).foldl Min.min
        sts.length))).2 ::
      (others.map (fun p => trunc p.1 p.2 none
        (some ((others.map (fun p => p.2.length)).foldl Min.min
          sts.length)))).map Prod.snd) with e | st
  · rw [hh] at hok; cases hok
  · rw [hh] at hok; cases hok
    have heq : (trunc sds sts none
        (some ((others.map (fun p => p.2.length)).foldl Min.min
          sts.length))).1 = sds.take
        ((others.map (fun p => p.2.length)).foldl Min.min sts.length) := by
      by_cases hmm0 :
          (others.map (fun p => p.2.length)).foldl Min.min sts.length = 0
      · rw [hmm0] at hh ⊢
        have hall : ∀ p ∈ others, p.2.length = sts.length := by
          intro p hp
          have hmem : (trunc p.1 p.2 none (some 0)).2 ∈
              (others.map (fun p => trunc p.1 p.2 none (some 0))).map
                Prod.snd :=
            List.mem_map.mpr ⟨trunc p.1 p.2 none (some 0),
              List.mem_map.mpr ⟨p, hp, rfl⟩, rfl⟩
          have := hstackAll_ok_lengths _ _ _ hh _ hmem
          simpa [trunc, pyTruthyNat] using this
        have hstslen :
            (others.map (fun p => p.2.length)).foldl Min.min sts.length =
              sts.length := by
          apply foldl_min_const
          intro x hx
          obtain ⟨p, hp, hpx⟩ := List.mem_map.mp hx
          rw [← hpx]
          exact hall p hp
        have hzero : sts.length = 0 := by rw [← hstslen, hmm0]
        have hsds : sds = [] :=
          List.length_eq_zero.mp (hs.trans hzero)
        simp [trunc, pyTruthyNat, hsds]
      · have : trunc sds sts none
            (some ((others.map (fun p => p.2.length)).foldl Min.min
              sts.length)) =
            (sds.take ((others.map (fun p => p.2.length)).foldl Min.min
              sts.length),
             sts.take ((others.map (fun p => p.2.length)).foldl Min.min
              sts.length)) := by
          unfold trunc
          rw [if_neg (by simp [pyTruthyNat]),
            if_neg (by simp [pyTruthyNat]),
            if_pos (by simp [pyTruthyNat, hmm0])]
          rfl
        rw [this]
    refine ⟨heq, fun hsort => ?_, fun hsort => ?_⟩
    · rw [heq] at *
      exact hsort.sublist (List.take_sublist _ _)
    · rw [heq] at *
      exact hsort.sublist (List.take_sublist _ _)

/-- C5 amended witness: on the date-sorted descending caller `[9, 8, 7]`
combined with a two-row series, the result holds the first two caller
dates and stays descending. -/
theorem claim_C5_amended_combine_take_witness :
    ((([9, 8], [[1, 4], [2, 5]]) : List Int × List Row).1 =
      ([9, 8, 7] : List Int).take 2) ∧
    (List.Sorted (· ≥ ·) ([9, 8, 7] : List Int) →
      List.Sorted (· ≥ ·) (([9, 8], [[1, 4], [2, 5]]) :
        List Int × List Row).1) ∧
    (List.Sorted (· ≤ ·) ([9, 8, 7] : List Int) →
      List.Sorted (· ≤ ·) (([9, 8], [[1, 4], [2, 5]]) :
        List Int × List Row).1) :=
  claim_C5_amended_combine_take [9, 8, 7] [[1], [2], [3]]
    [([20, 19], [[4], [5]])] ([9, 8], [[1, 4], [2, 5]]) rfl (by rfl)

/-- `datetime.weekday()` lands in `0..6`. -/
theorem pyWeekday_range (o : Int) :
    0 ≤ pyWeekday o ∧ pyWeekday o < 7 := by
  unfold pyWeekday
  exact ⟨Int.emod_nonneg _ (by norm_num), Int.emod_lt_of_pos _ (by norm_num)⟩

/-- A pointwise-zero indicator map reads `0` at every index. -/
theorem getD_map_zero (l : List Int) (f : Int → Int)
    (hf : ∀ o, f o = 0) (j : Nat) : (l.map f).getD j 0 = 0 := by
  by_cases hj : j < l.length
  · rw [List.getD_eq_getElem _ _ (by simpa using hj), List.getElem_map]
    exact hf _
  · rw [List.getD_eq_default _ _ (by simpa using not_lt.mp hj)]

/-- An out-of-range weekday yields a constantly-zero indicator, hence no
boundary at all. -/
theorem boundaries_weekday_out_of_range (dates : List Int) (wk : Int)
    (h : wk < 0 ∨ 6 < wk) :
    boundariesOf dates (fun o kw => weekday_test o kw) (some wk) = [] := by
  have hf : ∀ o, weekday_test o (some wk) = 0 := by
    intro o
    show (if pyWeekday o = wk then 1 else 0) = 0
    rw [if_neg]
    obtain ⟨h0, h7⟩ := pyWeekday_range o
    rcases h with h | h <;> omega
  unfold boundariesOf
  apply List.filter_eq_nil_iff.mpr
  intro i _
  rw [getD_map_zero dates _ hf, getD_map_zero dates _ hf]
  decide

/-- `convert` on a daily ordinal source with a recognized target reduces
to the boundary scan, the index selection, and the rebuild. -/
theorem convert_daily_eq (ds : List Int) (ts : List Row) (eop ip : Bool)
    (wk : Option Int) (nf : Freq) (f : Int → Option Int → Int)
    (hf : indicatorOf nf = some f) :
    convert ⟨ds, ts, .d, eop⟩ nf ip wk =
      .ok (convert_rebuild (sort_by_date ds ts true false).1
        (sort_by_date ds ts true false).2
        (convert_select
          (boundariesOf (sort_by_date ds ts true false).1 f wk)
          eop ip 3 3 (sort_by_date ds ts true false).1.length)
        (series_direction ds) nf eop) := by
  unfold convert
  rw [hf]
  rfl

/-- Rebuilding from the empty selection yields the empty series. -/
theorem convert_rebuild_empty (ds0 : List Int) (ts0 : List Row)
    (series_dir : Int) (nf : Freq) (eop : Bool) :
    convert_rebuild ds0 ts0 [] series_dir nf eop = ⟨[], [], nf, eop⟩ := by
  unfold convert_rebuild
  dsimp only
  split <;> split <;> rfl

/-- C7 amended: a `weekday` outside `0..6` is not validated anywhere —
`Timeseries.convert` only gates the target frequency code and
`_weekday_test` compares blindly.  The conversion runs to completion: the
impossible weekday matches no date, the boundary scan finds nothing, and
an empty weekly series is returned instead of an immediate failure. -/
theorem claim_C7_amended_weekday_unchecked (ds : List Int)
    (ts : List Row) (eop ip : Bool) (wk : Int)
    (h : wk < 0 ∨ 6 < wk) :
    Timeseries_convert ⟨ds, ts, .d, eop⟩ .w ip (some wk) =
      .ok ⟨[], [], .w, eop⟩ := by
  have hwrap : Timeseries_convert ⟨ds, ts, .d, eop⟩ .w ip (some wk) =
      convert ⟨ds, ts, .d, eop⟩ .w ip (some wk) := rfl
  rw [hwrap,
    convert_daily_eq ds ts eop ip (some wk) .w
      (fun o kw => weekday_test o kw) rfl,
    boundaries_weekday_out_of_range _ wk h,
    show ∀ n, convert_select [] eop ip 3 3 n = [] from fun n => rfl,
    convert_rebuild_empty]

/-- C7 amended witness: `weekday=9` on a concrete two-day series returns
the empty weekly series without an error. -/
theorem claim_C7_amended_weekday_unchecked_witness :
    Timeseries_convert ⟨[735964, 735963], [[1], [2]], .d, true⟩ .w false
      (some 9) = .ok ⟨[], [], .w, true⟩ :=
  claim_C7_amended_weekday_unchecked [735964, 735963] [[1], [2]] true
    false 9 (Or.inr (by norm_num))

/-- The trailing default of `getLastD` is irrelevant for nonempty lists:
the value is a member. -/
theorem getLastD_mem (l : List Int) (d : Int) (h : l ≠ []) :
    l.getLastD d ∈ l := by
  induction l generalizing d with
  | nil => exact absurd rfl h
  | cons a t ih =>
      cases t with
      | nil => simp
      | cons b t' =>
          rw [List.getLastD_cons]
          exact List.mem_cons_of_mem _ (ih a (by simp))

/-- `sort_by_date(reverse=True)` is the identity on a series already
stored newest-first (the endpoint comparison reports descending, so the
reversal is skipped); degenerate lengths reverse, which is also the
identity there. -/
theorem sort_by_date_desc_noop (ds : List Int) (ts : List Row)
    (hs : ds.length = ts.length) (hsort : List.Sorted (· ≥ ·) ds) :
    sort_by_date ds ts true false = (ds, ts) := by
  rcases ds with _ | ⟨a, ds'⟩
  · have hts : ts = [] := List.length_eq_zero.mp hs.symm
    subst hts
    rfl
  · rcases ds' with _ | ⟨b, ds''⟩
    · obtain ⟨t, hts⟩ : ∃ t, ts = [t] := by
        rcases ts with _ | ⟨t, ts'⟩
        · cases hs
        · rcases ts' with _ | ⟨u, ts''⟩
          · exact ⟨t, rfl⟩
          · cases hs
      subst hts
      rfl
    · have hle : (a :: b :: ds'').getLastD 0 ≤ a := by
        have hlast : (a :: b :: ds'').getLastD 0 ∈ a :: b :: ds'' :=
          getLastD_mem _ 0 (by simp)
        have hge : ∀ x ∈ b :: ds'', a ≥ x :=
          List.rel_of_sorted_cons hsort
        rcases List.mem_cons.mp hlast with hh | hh
        · exact le_of_eq hh
        · exact hge _ hh
      have hdir : series_direction (a :: b :: ds'') = -1 := by
        unfold series_direction
        rw [if_pos (by simp),
          if_neg (by simp only [List.headD_cons]; omega)]
      show (if true = false ∧ series_direction (a :: b :: ds'') = 1 then
          (a :: b :: ds'', ts)
        else if true = true ∧ series_direction (a :: b :: ds'') = -1 then
          (a :: b :: ds'', ts)
        else reverseTs (a :: b :: ds'') ts) = (a :: b :: ds'', ts)
      rw [if_neg (by simp), if_pos (by simp [hdir])]

/-- With `include_partial` and a daily source, index `0` — the most recent
row of the descending-normalized series — always enters the selection:
either the (possibly shifted) first boundary already is `0`, or `0` is
prepended. -/
theorem zero_mem_convert_select (selected0 : List Nat)
    (h : selected0 ≠ []) (eop : Bool) (n : Nat) :
    0 ∈ convert_select selected0 eop true 3 3 n := by
  rcases selected0 with _ | ⟨i, rest⟩
  · exact absurd rfl h
  · show 0 ∈ (if ((if eop then (i :: rest).map (· + 1)
        else i :: rest).headD 0 ≠ 0) then
        0 :: (if eop then (i :: rest).map (· + 1) else i :: rest)
      else (if eop then (i :: rest).map (· + 1) else i :: rest))
    by_cases hz : ((if eop then (i :: rest).map (· + 1)
        else i :: rest).headD 0 ≠ 0)
    · rw [if_pos hz]
      exact List.mem_cons_self _ _
    · rw [if_neg hz]
      rcases heop : eop with _ | _
      · rw [heop] at hz
        simp only [if_neg Bool.false_ne_true, List.headD_cons] at hz ⊢
        rw [not_not.mp hz] at *
        exact List.mem_cons_self _ _
      · rw [heop] at hz
        exfalso
        apply hz
        simp

/-- The date at any selected index survives into the rebuilt series, with
or without the final direction-restoring reversal. -/
theorem mem_dseries_convert_rebuild (ds0 : List Int) (ts0 : List Row)
    (selected : List Nat) (series_dir : Int) (nf : Freq) (eop : Bool)
    (i : Nat) (hi : i ∈ selected) :
    ds0.getD i 0 ∈
      (convert_rebuild ds0 ts0 selected series_dir nf eop).dseries := by
  have hmem : ds0.getD i 0 ∈ selected.map (fun j => ds0.getD j 0) :=
    List.mem_map_of_mem _ hi
  unfold convert_rebuild
  dsimp only
  split <;> split <;>
    first
      | exact hmem
      | exact List.mem_reverse.mpr hmem

/-- The head default is irrelevant for a nonempty list. -/
theorem headD_eq_getD (ds : List Int) (h : ds ≠ []) :
    ds.headD 0 = ds.getD 0 0 := by
  rcases ds with _ | ⟨a, t⟩
  · exact absurd rfl h
  · rfl

/-- C2 amended: for a daily ordinal series stored (or normalized)
newest-first, converted to a week/month/quarter/year target, the most
recent row is guaranteed in the output only when `include_partial=True`
*and* at least one period boundary was detected; the counterexample shows
it dropped when no boundary exists, and the repository's own tests pin
`include_partial=False` to drop it (weekly: last output 2018-01-12, not
2018-01-15). -/
theorem claim_C2_amended_include_partial_latest (ds : List Int)
    (ts : List Row) (eop : Bool) (nf : Freq) (wk : Option Int)
    (f : Int → Option Int → Int)
    (hs : ds.length = ts.length)
    (hsort : List.Sorted (· ≥ ·) ds)
    (hne : ds ≠ [])
    (_hnf : nf = .w ∨ nf = .m ∨ nf = .q ∨ nf = .y)
    (hf : indicatorOf nf = some f)
    (hb : boundariesOf ds f wk ≠ []) :
    ∃ out, convert ⟨ds, ts, .d, eop⟩ nf true wk = .ok out ∧
      ds.headD 0 ∈ out.dseries := by
  have hsbd := sort_by_date_desc_noop ds ts hs hsort
  refine ⟨_, convert_daily_eq ds ts eop true wk nf f hf, ?_⟩
  rw [hsbd]
  dsimp only
  rw [headD_eq_getD ds hne]
  exact mem_dseries_convert_rebuild ds ts _ _ nf eop 0
    (zero_mem_convert_select _ hb eop ds.length)

/-- C2 amended witness: the two-day series 2016-01-01, 2015-12-31 crosses
a month boundary; monthly conversion with `include_partial=True` keeps the
most recent date 2016-01-01. -/
theorem claim_C2_amended_include_partial_latest_witness :
    ∃ out, convert ⟨[735964, 735963], [[1], [2]], .d, true⟩ .m true none =
        .ok out ∧
      ([735964, 735963] : List Int).headD 0 ∈ out.dseries :=
  claim_C2_amended_include_partial_latest [735964, 735963] [[1], [2]]
    true .m none (fun o _ => ordDay o) rfl (by decide) (by decide)
    (Or.inr (Or.inl rfl)) rfl (by decide)

end Thymus
